import Mathlib

/-!
Verification of the versioner utility's version model and substitution engine.

The development shallowly embeds the TypeScript sources:
* `src/cli/version.ts` — semantic-version parsing, formatting, adjustment and
  manifest update (`parseVersion`, `formatVersion`, `adjustVersionPart`,
  `updatePackageVersion`);
* `src/cli/commands.ts` — the `handleCopyTo` substitution engine (candidate
  filtering and per-file rewriting) and the `handleUpdateVersionPart`
  direction resolution.

Numbers are modelled as `Int`/`Nat` (the schema constrains them to
non-negative integers), strings as `List Char` at the algorithmic level with
thin `String` wrappers, and file-system effects as explicit state records
with failure flags.
-/

set_option maxRecDepth 8192

namespace Versioner

/-! ### Character and decimal-numeral helpers -/

/-- Numeric value of a decimal digit character (`'0'` ↦ 0, …, `'9'` ↦ 9). -/
def digitVal (c : Char) : Nat := c.toNat - 48

/-- Decimal digit character for a value below ten. -/
def digitChar (d : Nat) : Char := Char.ofNat (48 + d)

/-- The characters matched by the regex class `\d`, i.e. exactly `[0-9]`. -/
def isDigitCh (c : Char) : Bool := 48 ≤ c.toNat && c.toNat ≤ 57

/-- JavaScript line terminators: the characters *not* matched by `.`
in a regular expression without the `s` flag. -/
def isLineTerm (c : Char) : Bool :=
  c = '\n' || c = '\r' || c = Char.ofNat 0x2028 || c = Char.ofNat 0x2029

/-- Left fold of `parseInt(_, 10)` over an all-digit character run. -/
def digitsValAux (acc : Nat) : List Char → Nat
  | [] => acc
  | c :: cs => digitsValAux (10 * acc + digitVal c) cs

/-- Value of a decimal numeral given as a list of digit characters,
as computed by `parseInt(str, 10)` on an all-digit string. -/
def digitsVal (l : List Char) : Nat := digitsValAux 0 l

/-- Fuel-driven decimal rendering of a positive natural number
(most significant digit first); `fuel ≥ n` makes it exact. -/
def natToCharsAux : Nat → Nat → List Char
  | 0, _ => []
  | _ + 1, 0 => []
  | fuel + 1, n + 1 => natToCharsAux fuel ((n + 1) / 10) ++ [digitChar ((n + 1) % 10)]

/-- Decimal rendering of a natural number, as produced by JavaScript
number-to-string conversion on a non-negative integer. -/
def natToChars (n : Nat) : List Char := if n = 0 then ['0'] else natToCharsAux n n

/-- Decimal rendering of an integer (JavaScript `${n}` template conversion
restricted to mathematical integers). -/
def intToChars (i : Int) : List Char :=
  if i < 0 then '-' :: natToChars i.natAbs else natToChars i.toNat

/-! ### The semantic-version data model (`SemanticVersionSchema`) -/

/-- A semantic version: `major`/`minor`/`patch` numeric parts and an optional
build tag. The zod schema additionally constrains the numeric parts to be
non-negative integers; the TypeScript value space is any integers, which we
model with `Int`. -/
structure SemanticVersion where
  major : Int
  minor : Int
  patch : Int
  build : Option String := none
deriving DecidableEq, Repr

/-- The zod-schema invariant together with the spec's build invariant:
numeric parts non-negative, build (when present) non-empty. -/
def versionOk (v : SemanticVersion) : Bool :=
  decide (0 ≤ v.major) && decide (0 ≤ v.minor) && decide (0 ≤ v.patch) &&
    (match v.build with
     | none => true
     | some b => !b.isEmpty)

/-! ### `parseVersion`

The source matches the string against the regular expression
`^(\d+)\.(\d+)\.(\d+)(?:-(.+))?$` and converts the captured groups with
`parseInt`. The regex has deterministic matching behaviour: each `\d+`
necessarily captures the maximal digit run at its position (any shorter
candidate leaves a digit where the literal `.` or the `-`/end must match),
and the optional build group `(.+)` must cover everything after the hyphen,
succeeding exactly when that remainder is non-empty and free of line
terminators. `regexMatch` embeds that match, returning the four captures. -/

/-- Consume the literal `\.` of the pattern: succeeds exactly when the
remainder starts with `'.'`, returning what follows. -/
def matchDot : List Char → Option (List Char)
  | [] => none
  | c :: r => if c = '.' then some r else none

/-- Consume the optional `(?:-(.+))?$` suffix: at the end of the string the
group is absent; otherwise a `'-'` followed by a non-empty run of
non-line-terminator characters reaching the end is its capture. -/
def matchBuild : List Char → Option (Option (List Char))
  | [] => some none
  | c :: b =>
    if c = '-' then
      if b.isEmpty || b.any isLineTerm then none else some (some b)
    else none

def regexMatch (s : List Char) :
    Option (List Char × List Char × List Char × Option (List Char)) :=
  let d1 := (s.span isDigitCh).1
  let r1 := (s.span isDigitCh).2
  if d1 = [] then none else
  match matchDot r1 with
  | none => none
  | some r2 =>
    let d2 := (r2.span isDigitCh).1
    let r3 := (r2.span isDigitCh).2
    if d2 = [] then none else
    match matchDot r3 with
    | none => none
    | some r4 =>
      let d3 := (r4.span isDigitCh).1
      let r5 := (r4.span isDigitCh).2
      if d3 = [] then none else
      match matchBuild r5 with
      | none => none
      | some ob => some (d1, d2, d3, ob)

/-- `parseVersion` from `src/cli/version.ts`: regex match, `parseInt` on the
numeric groups, build attached only when its group matched (in which case it
is non-empty, so the `if (build)` truthiness test passes), and the final
schema validation always succeeds on these values. -/
def parseVersionChars (s : List Char) : Option SemanticVersion :=
  match regexMatch s with
  | none => none
  | some (d1, d2, d3, ob) =>
    some { major := (digitsVal d1 : Int)
           minor := (digitsVal d2 : Int)
           patch := (digitsVal d3 : Int)
           build := ob.map (fun b => String.mk b) }

/-- String-level wrapper for `parseVersion`. -/
def parseVersion (s : String) : Option SemanticVersion := parseVersionChars s.data

/-! ### `formatVersion` -/

/-- The `major.minor.patch` core of the formatted string. -/
def formatCore (v : SemanticVersion) : List Char :=
  intToChars v.major ++ '.' :: intToChars v.minor ++ '.' :: intToChars v.patch

/-- `formatVersion` from `src/cli/version.ts`: appends `-build` exactly when
`version.build` is truthy, i.e. present and non-empty. -/
def formatVersionChars (v : SemanticVersion) : List Char :=
  match v.build with
  | some b => if b.isEmpty then formatCore v else formatCore v ++ '-' :: b.data
  | none => formatCore v

/-- String-level wrapper for `formatVersion`. -/
def formatVersion (v : SemanticVersion) : String := String.mk (formatVersionChars v)

/-! ### `adjustVersionPart` -/

inductive Part where
  | major | minor | patch
deriving DecidableEq, Repr

inductive Direction where
  | up | down
deriving DecidableEq, Repr

/-- `adjustVersionPart` from `src/cli/version.ts`: increment with reset of
subordinate parts, or decrement guarded by strict positivity. -/
def adjustVersionPart (version : SemanticVersion) (part : Part)
    (direction : Direction) : SemanticVersion :=
  match direction, part with
  | .up, .major => { version with major := version.major + 1, minor := 0, patch := 0 }
  | .up, .minor => { version with minor := version.minor + 1, patch := 0 }
  | .up, .patch => { version with patch := version.patch + 1 }
  | .down, .major =>
    if version.major > 0 then { version with major := version.major - 1 } else version
  | .down, .minor =>
    if version.minor > 0 then { version with minor := version.minor - 1 } else version
  | .down, .patch =>
    if version.patch > 0 then { version with patch := version.patch - 1 } else version

/-! ### Decimal numeral round-trip lemmas

`digitsVal` and `natToChars` are related to Mathlib's `Nat.digits` machinery
to obtain the round-trip laws used by the parse/format theorems. -/

theorem digitsValAux_nil (acc : Nat) : digitsValAux acc [] = acc := rfl

theorem digitsValAux_cons (acc : Nat) (c : Char) (cs : List Char) :
    digitsValAux acc (c :: cs) = digitsValAux (10 * acc + digitVal c) cs := rfl

theorem digitsValAux_eq (l : List Char) : ∀ acc : Nat,
    digitsValAux acc l = acc * 10 ^ l.length + Nat.ofDigits 10 (l.map digitVal).reverse := by
  induction l with
  | nil =>
    intro acc
    rw [digitsValAux_nil, List.map_nil, List.reverse_nil, Nat.ofDigits_nil]
    simp
  | cons c cs ih =>
    intro acc
    rw [digitsValAux_cons, ih, List.map_cons, List.reverse_cons, Nat.ofDigits_append,
      Nat.ofDigits_singleton]
    simp only [List.length_cons, List.length_reverse, List.length_map]
    ring

theorem digitsVal_eq (l : List Char) :
    digitsVal l = Nat.ofDigits 10 (l.map digitVal).reverse := by
  simpa using digitsValAux_eq l 0

theorem natToCharsAux_zero (n : Nat) : natToCharsAux 0 n = [] := rfl

theorem natToCharsAux_fuel (fuel : Nat) : natToCharsAux (fuel + 1) 0 = [] := rfl

theorem natToCharsAux_succ (fuel m : Nat) :
    natToCharsAux (fuel + 1) (m + 1) =
      natToCharsAux fuel ((m + 1) / 10) ++ [digitChar ((m + 1) % 10)] := rfl

theorem natToCharsAux_eq : ∀ fuel n, n ≤ fuel →
    natToCharsAux fuel n = ((Nat.digits 10 n).map digitChar).reverse := by
  intro fuel
  induction fuel with
  | zero =>
    intro n hn
    interval_cases n
    rw [natToCharsAux_zero, Nat.digits_zero, List.map_nil, List.reverse_nil]
  | succ fuel ih =>
    intro n hn
    match n with
    | 0 => rw [natToCharsAux_fuel, Nat.digits_zero, List.map_nil, List.reverse_nil]
    | m + 1 =>
      have hlt : (m + 1) / 10 < m + 1 := Nat.div_lt_self (Nat.succ_pos m) (by norm_num)
      rw [natToCharsAux_succ, ih ((m + 1) / 10) (by omega),
        Nat.digits_def' (by norm_num : (1 : ℕ) < 10) (Nat.succ_pos m)]
      simp

theorem natToChars_eq (n : Nat) (hn : n ≠ 0) :
    natToChars n = ((Nat.digits 10 n).map digitChar).reverse := by
  rw [natToChars, if_neg hn]
  exact natToCharsAux_eq n n le_rfl

theorem digitVal_digitChar : ∀ d : Nat, d < 10 → digitVal (digitChar d) = d := by decide

theorem isDigitCh_digitChar : ∀ d : Nat, d < 10 → isDigitCh (digitChar d) = true := by decide

theorem isDigitCh_bounds {c : Char} (h : isDigitCh c = true) :
    48 ≤ c.toNat ∧ c.toNat ≤ 57 := by
  simpa [isDigitCh, Bool.and_eq_true] using h

theorem digitVal_lt_ten {c : Char} (h : isDigitCh c = true) : digitVal c < 10 := by
  have := isDigitCh_bounds h
  unfold digitVal
  omega

theorem digitChar_digitVal {c : Char} (h : isDigitCh c = true) :
    digitChar (digitVal c) = c := by
  have hb := isDigitCh_bounds h
  unfold digitChar digitVal
  have h48 : 48 + (c.toNat - 48) = c.toNat := by omega
  rw [h48, Char.ofNat_toNat]

theorem digitVal_ne_zero {c : Char} (h : isDigitCh c = true) (h0 : c ≠ '0') :
    digitVal c ≠ 0 := by
  have hb := isDigitCh_bounds h
  have h48 : c.toNat ≠ 48 := by
    intro heq
    apply h0
    have : c = Char.ofNat c.toNat := (Char.ofNat_toNat c).symm
    rw [heq] at this
    exact this
  unfold digitVal
  omega

theorem natToChars_ne_nil (n : Nat) : natToChars n ≠ [] := by
  by_cases hn : n = 0
  · subst hn; decide
  · rw [natToChars_eq n hn]
    simp [Nat.digits_ne_nil_iff_ne_zero, hn]

theorem mem_natToChars_isDigit {n : Nat} {c : Char} (h : c ∈ natToChars n) :
    isDigitCh c = true := by
  by_cases hn : n = 0
  · subst hn
    simp [natToChars] at h
    subst h
    decide
  · rw [natToChars_eq n hn] at h
    rw [List.mem_reverse, List.mem_map] at h
    obtain ⟨d, hd, rfl⟩ := h
    exact isDigitCh_digitChar d (Nat.digits_lt_base (by norm_num) hd)

theorem digitsVal_natToChars (n : Nat) : digitsVal (natToChars n) = n := by
  by_cases hn : n = 0
  · subst hn; decide
  · rw [natToChars_eq n hn, digitsVal_eq, List.map_reverse, List.reverse_reverse,
      List.map_map]
    have hmap : (Nat.digits 10 n).map (digitVal ∘ digitChar) = (Nat.digits 10 n).map id :=
      List.map_congr_left fun d hd => digitVal_digitChar d (Nat.digits_lt_base (by norm_num) hd)
    rw [hmap, List.map_id, Nat.ofDigits_digits]

/-- A decimal numeral is canonical when it does not start with a redundant
zero (`"0"` itself is canonical). -/
def noLeadZero : List Char → Bool
  | c :: _ :: _ => c != '0'
  | _ => true

theorem natToChars_digitsVal (l : List Char) (hne : l ≠ [])
    (hdig : ∀ c ∈ l, isDigitCh c = true) (hlz : noLeadZero l = true) :
    natToChars (digitsVal l) = l := by
  by_cases h0 : l = ['0']
  · subst h0; decide
  · obtain ⟨c, t, rfl⟩ := List.exists_cons_of_ne_nil hne
    have hc0 : c ≠ '0' := by
      match t, hlz with
      | [], _ =>
        intro hc
        rw [hc] at h0
        exact h0 rfl
      | _ :: _, hlz => exact bne_iff_ne.mp hlz
    have hml : ∀ d ∈ ((c :: t).map digitVal).reverse, d < 10 := by
      intro d hd
      rw [List.mem_reverse, List.mem_map] at hd
      obtain ⟨x, hx, rfl⟩ := hd
      exact digitVal_lt_ten (hdig x hx)
    have hrevne : ((c :: t).map digitVal).reverse ≠ [] := by simp
    have hlast : ∀ (h : ((c :: t).map digitVal).reverse ≠ []),
        (((c :: t).map digitVal).reverse).getLast h ≠ 0 := by
      intro h
      rw [List.getLast_reverse]
      simp only [List.map_cons, List.head_cons]
      exact digitVal_ne_zero (hdig c (List.mem_cons_self c t)) hc0
    have hdg : Nat.digits 10 (Nat.ofDigits 10 ((c :: t).map digitVal).reverse) =
        ((c :: t).map digitVal).reverse :=
      Nat.digits_ofDigits 10 (by norm_num) _ hml hlast
    have hv : digitsVal (c :: t) = Nat.ofDigits 10 ((c :: t).map digitVal).reverse :=
      digitsVal_eq _
    have hvne : digitsVal (c :: t) ≠ 0 := by
      intro hz
      rw [hv] at hz
      rw [hz, Nat.digits_zero] at hdg
      exact hrevne hdg.symm
    rw [natToChars_eq _ hvne, hv, hdg, List.map_reverse, List.reverse_reverse,
      List.map_map]
    have hmap : (c :: t).map (digitChar ∘ digitVal) = (c :: t).map id :=
      List.map_congr_left fun x hx => digitChar_digitVal (hdig x hx)
    rw [hmap, List.map_id]

/-! ### Span lemmas

The regex `^(\d+)\.(\d+)\.(\d+)(?:-(.+))?$` matches deterministically; the
following lemmas compute `List.span` on strings assembled from digit runs
and separators. -/

theorem takeWhile_not_head {p : Char → Bool} {l : List Char}
    (h : ∀ c, l.head? = some c → p c = false) : l.takeWhile p = [] := by
  cases l with
  | nil => rfl
  | cons c t => exact List.takeWhile_cons_of_neg (by simp [h c rfl])

theorem dropWhile_not_head {p : Char → Bool} {l : List Char}
    (h : ∀ c, l.head? = some c → p c = false) : l.dropWhile p = l := by
  cases l with
  | nil => rfl
  | cons c t => exact List.dropWhile_cons_of_neg (by simp [h c rfl])

theorem span_all_append {p : Char → Bool} (l1 l2 : List Char)
    (h1 : ∀ c ∈ l1, p c = true) (h2 : ∀ c, l2.head? = some c → p c = false) :
    (l1 ++ l2).span p = (l1, l2) := by
  rw [List.span_eq_take_drop, List.takeWhile_append_of_pos h1,
    List.dropWhile_append_of_pos h1, takeWhile_not_head h2, dropWhile_not_head h2,
    List.append_nil]

theorem mem_takeWhile {p : Char → Bool} {l : List Char} {c : Char}
    (h : c ∈ l.takeWhile p) : p c = true := by
  have := List.all_takeWhile (l := l) (p := p)
  rw [List.all_eq_true] at this
  exact this c h

/-! ### Shape of accepted version strings -/

/-- A well-formed numeric capture group: a non-empty all-digit run. -/
def goodGroup (l : List Char) : Prop := l ≠ [] ∧ ∀ c ∈ l, isDigitCh c = true

/-- The trailing characters contributed by the optional build group. -/
def buildTail : Option (List Char) → List Char
  | none => []
  | some b => '-' :: b

/-- A well-formed build capture: non-empty and free of line terminators
(the characters `(.+)` can match). -/
def goodBuild : Option (List Char) → Prop
  | none => True
  | some b => b ≠ [] ∧ b.any isLineTerm = false

/-- The string assembled from three numeric groups and an optional build. -/
def assembleChars (d1 d2 d3 : List Char) (ob : Option (List Char)) : List Char :=
  d1 ++ ('.' :: (d2 ++ ('.' :: (d3 ++ buildTail ob))))

theorem matchDot_dot (r : List Char) : matchDot ('.' :: r) = some r := by
  simp [matchDot]

theorem matchBuild_nil : matchBuild [] = some none := rfl

theorem matchBuild_dash {b : List Char} (hbn : b.isEmpty = false)
    (hbl : b.any isLineTerm = false) : matchBuild ('-' :: b) = some (some b) := by
  simp [matchBuild, hbn, hbl]

theorem regexMatch_assemble (d1 d2 d3 : List Char) (ob : Option (List Char))
    (h1 : goodGroup d1) (h2 : goodGroup d2) (h3 : goodGroup d3) (hb : goodBuild ob) :
    regexMatch (assembleChars d1 d2 d3 ob) = some (d1, d2, d3, ob) := by
  obtain ⟨h1n, h1d⟩ := h1
  obtain ⟨h2n, h2d⟩ := h2
  obtain ⟨h3n, h3d⟩ := h3
  have hdot : ∀ c : Char, ('.' :: (d2 ++ ('.' :: (d3 ++ buildTail ob)))).head? = some c →
      isDigitCh c = false := by
    intro c hc
    rw [List.head?_cons, Option.some.injEq] at hc
    subst hc
    decide
  have hdot2 : ∀ c : Char, ('.' :: (d3 ++ buildTail ob)).head? = some c →
      isDigitCh c = false := by
    intro c hc
    rw [List.head?_cons, Option.some.injEq] at hc
    subst hc
    decide
  have htail : ∀ c : Char, (buildTail ob).head? = some c → isDigitCh c = false := by
    intro c hc
    cases ob with
    | none => simp [buildTail] at hc
    | some b =>
      simp only [buildTail, List.head?_cons, Option.some.injEq] at hc
      subst hc
      decide
  have ht1 : List.takeWhile isDigitCh
      (d1 ++ ('.' :: (d2 ++ ('.' :: (d3 ++ buildTail ob))))) = d1 := by
    rw [List.takeWhile_append_of_pos h1d, takeWhile_not_head hdot, List.append_nil]
  have hd1 : List.dropWhile isDigitCh
      (d1 ++ ('.' :: (d2 ++ ('.' :: (d3 ++ buildTail ob))))) =
      '.' :: (d2 ++ ('.' :: (d3 ++ buildTail ob))) := by
    rw [List.dropWhile_append_of_pos h1d, dropWhile_not_head hdot]
  have ht2 : List.takeWhile isDigitCh (d2 ++ ('.' :: (d3 ++ buildTail ob))) = d2 := by
    rw [List.takeWhile_append_of_pos h2d, takeWhile_not_head hdot2, List.append_nil]
  have hd2 : List.dropWhile isDigitCh (d2 ++ ('.' :: (d3 ++ buildTail ob))) =
      '.' :: (d3 ++ buildTail ob) := by
    rw [List.dropWhile_append_of_pos h2d, dropWhile_not_head hdot2]
  have ht3 : List.takeWhile isDigitCh (d3 ++ buildTail ob) = d3 := by
    rw [List.takeWhile_append_of_pos h3d, takeWhile_not_head htail, List.append_nil]
  have hd3 : List.dropWhile isDigitCh (d3 ++ buildTail ob) = buildTail ob := by
    rw [List.dropWhile_append_of_pos h3d, dropWhile_not_head htail]
  have hbuild : matchBuild (buildTail ob) = some ob := by
    cases ob with
    | none => exact matchBuild_nil
    | some b =>
      obtain ⟨hbn, hbl⟩ := hb
      have hie : b.isEmpty = false := by
        cases b with
        | nil => exact absurd rfl hbn
        | cons x xs => rfl
      exact matchBuild_dash hie hbl
  simp only [regexMatch, assembleChars, List.span_eq_take_drop, ht1, hd1, ht2, hd2,
    ht3, hd3, matchDot_dot, hbuild, if_neg h1n, if_neg h2n, if_neg h3n]

theorem matchDot_inv {l r : List Char} (h : matchDot l = some r) : l = '.' :: r := by
  cases l with
  | nil => simp [matchDot] at h
  | cons c t =>
    simp only [matchDot] at h
    split at h
    · rename_i hc
      rw [Option.some.injEq] at h
      rw [hc, h]
    · simp at h

theorem matchBuild_inv {l : List Char} {ob : Option (List Char)}
    (h : matchBuild l = some ob) : l = buildTail ob ∧ goodBuild ob := by
  cases l with
  | nil =>
    simp only [matchBuild, Option.some.injEq] at h
    subst h
    exact ⟨rfl, trivial⟩
  | cons c b =>
    simp only [matchBuild] at h
    split at h
    · rename_i hc
      split at h
      · simp at h
      · rename_i hcond
        rw [Option.some.injEq] at h
        subst h
        rw [Bool.or_eq_true, not_or, Bool.not_eq_true, Bool.not_eq_true] at hcond
        obtain ⟨hie, hal⟩ := hcond
        have hbn : b ≠ [] := by
          intro hb
          subst hb
          simp at hie
        exact ⟨by rw [hc]; rfl, ⟨hbn, hal⟩⟩
    · simp at h

theorem regexMatch_inv {s d1 d2 d3 : List Char} {ob : Option (List Char)}
    (h : regexMatch s = some (d1, d2, d3, ob)) :
    s = assembleChars d1 d2 d3 ob ∧ goodGroup d1 ∧ goodGroup d2 ∧ goodGroup d3 ∧
      goodBuild ob := by
  simp only [regexMatch, List.span_eq_take_drop] at h
  split at h
  · simp at h
  · rename_i h1n
    split at h
    · simp at h
    · rename_i r2 heq1
      split at h
      · simp at h
      · rename_i h2n
        split at h
        · simp at h
        · rename_i r4 heq2
          split at h
          · simp at h
          · rename_i h3n
            split at h
            · simp at h
            · rename_i ob' heq3
              simp only [Option.some.injEq, Prod.mk.injEq] at h
              obtain ⟨e1, e2, e3, e4⟩ := h
              subst e1
              subst e2
              subst e3
              subst e4
              obtain ⟨hbt, hgb⟩ := matchBuild_inv heq3
              have hr1 : s.dropWhile isDigitCh = '.' :: r2 := matchDot_inv heq1
              have hr3 : r2.dropWhile isDigitCh = '.' :: r4 := matchDot_inv heq2
              have e_s : s = s.takeWhile isDigitCh ++ ('.' :: r2) := by
                rw [← hr1, List.takeWhile_append_dropWhile]
              have e_r2 : r2 = r2.takeWhile isDigitCh ++ ('.' :: r4) := by
                rw [← hr3, List.takeWhile_append_dropWhile]
              have e_r4 : r4 = r4.takeWhile isDigitCh ++ r4.dropWhile isDigitCh :=
                (List.takeWhile_append_dropWhile _ _).symm
              refine ⟨?_, ⟨h1n, fun c hc => mem_takeWhile hc⟩,
                ⟨h2n, fun c hc => mem_takeWhile hc⟩,
                ⟨h3n, fun c hc => mem_takeWhile hc⟩, hgb⟩
              conv_lhs => rw [e_s, e_r2, e_r4, hbt]
              simp [assembleChars]

/-! ### Round-trip lemmas for `parseVersion` and `formatVersion` -/

theorem data_mk (l : List Char) : (String.mk l).data = l := rfl

theorem mk_data (s : String) : String.mk s.data = s := rfl

theorem intToChars_nonneg {i : Int} (h : 0 ≤ i) : intToChars i = natToChars i.toNat := by
  rw [intToChars, if_neg (by omega : ¬ i < 0)]

/-- The domain on which `Parse ∘ Format = id` holds: non-negative numeric
parts, and a build tag that is non-empty and contains no line terminator
(a build with a line terminator cannot be re-matched by `(.+)`). -/
def buildDomainOk : Option String → Prop
  | none => True
  | some b => b.data ≠ [] ∧ b.data.any isLineTerm = false

theorem goodGroup_natToChars (n : Nat) : goodGroup (natToChars n) :=
  ⟨natToChars_ne_nil n, fun _ hc => mem_natToChars_isDigit hc⟩

theorem formatVersionChars_eq_assemble (v : SemanticVersion) (h1 : 0 ≤ v.major)
    (h2 : 0 ≤ v.minor) (h3 : 0 ≤ v.patch) (hb : buildDomainOk v.build) :
    formatVersionChars v =
      assembleChars (natToChars v.major.toNat) (natToChars v.minor.toNat)
        (natToChars v.patch.toNat) (v.build.map String.data) := by
  cases hv : v.build with
  | none =>
    simp [formatVersionChars, hv, formatCore, assembleChars, buildTail,
      intToChars_nonneg h1, intToChars_nonneg h2, intToChars_nonneg h3]
  | some b =>
    rw [hv] at hb
    obtain ⟨hbn, _⟩ := hb
    have hie : b.isEmpty = false := by
      by_contra hcon
      rw [Bool.not_eq_false, String.isEmpty_iff] at hcon
      exact hbn (by rw [hcon])
    simp [formatVersionChars, hv, hie, formatCore, assembleChars, buildTail,
      intToChars_nonneg h1, intToChars_nonneg h2, intToChars_nonneg h3,
      List.append_assoc]

theorem parse_format_of_domain (v : SemanticVersion) (h1 : 0 ≤ v.major)
    (h2 : 0 ≤ v.minor) (h3 : 0 ≤ v.patch) (hb : buildDomainOk v.build) :
    parseVersion (formatVersion v) = some v := by
  have hgb : goodBuild (v.build.map String.data) := by
    cases hv : v.build with
    | none => trivial
    | some b =>
      rw [hv] at hb
      exact ⟨hb.1, hb.2⟩
  rw [formatVersion, parseVersion, data_mk, formatVersionChars_eq_assemble v h1 h2 h3 hb,
    parseVersionChars,
    regexMatch_assemble _ _ _ _ (goodGroup_natToChars _) (goodGroup_natToChars _)
      (goodGroup_natToChars _) hgb]
  simp only [digitsVal_natToChars, Option.some.injEq]
  cases v with
  | mk M N P B =>
    simp only [SemanticVersion.mk.injEq]
    refine ⟨Int.toNat_of_nonneg h1, Int.toNat_of_nonneg h2, Int.toNat_of_nonneg h3, ?_⟩
    cases B with
    | none => rfl
    | some b => simp [mk_data]

/-- An accepted version string has canonical numerals when none of its three
numeric groups carries a redundant leading zero. -/
def canonicalNumerals (s : List Char) : Bool :=
  match regexMatch s with
  | some (d1, d2, d3, _) => noLeadZero d1 && noLeadZero d2 && noLeadZero d3
  | none => false

theorem format_parse_of_canonical (s : String) (v : SemanticVersion)
    (hp : parseVersion s = some v) (hc : canonicalNumerals s.data = true) :
    formatVersion v = s := by
  rw [parseVersion, parseVersionChars] at hp
  cases hm : regexMatch s.data with
  | none => rw [hm] at hp; simp at hp
  | some q =>
    obtain ⟨d1, d2, d3, ob⟩ := q
    rw [hm] at hp
    simp only [Option.some.injEq] at hp
    obtain ⟨hs_eq, hg1, hg2, hg3, hgb⟩ := regexMatch_inv hm
    rw [canonicalNumerals, hm, Bool.and_eq_true, Bool.and_eq_true] at hc
    obtain ⟨⟨hz1, hz2⟩, hz3⟩ := hc
    subst hp
    have hbdom : buildDomainOk (ob.map (fun b => String.mk b)) := by
      cases ob with
      | none => trivial
      | some b => exact ⟨hgb.1, hgb.2⟩
    rw [formatVersion, formatVersionChars_eq_assemble _ (Int.natCast_nonneg _)
      (Int.natCast_nonneg _) (Int.natCast_nonneg _) hbdom]
    simp only [Int.toNat_natCast]
    rw [natToChars_digitsVal d1 hg1.1 hg1.2 hz1,
      natToChars_digitsVal d2 hg2.1 hg2.2 hz2,
      natToChars_digitsVal d3 hg3.1 hg3.2 hz3]
    have hob : (ob.map (fun b => String.mk b)).map String.data = ob := by
      cases ob with
      | none => rfl
      | some b => rfl
    rw [hob, ← hs_eq, mk_data]

/-! ### Version-model invariants -/

theorem isEmpty_false_iff (b : String) : b.isEmpty = false ↔ b.data ≠ [] := by
  rw [← Bool.not_eq_true, String.isEmpty_iff, String.ext_iff]

theorem versionOk_iff (M N P : Int) (B : Option String) :
    versionOk ⟨M, N, P, B⟩ = true ↔
      0 ≤ M ∧ 0 ≤ N ∧ 0 ≤ P ∧ (match B with | none => True | some b => b.data ≠ []) := by
  cases B with
  | none => simp [versionOk, and_assoc]
  | some b =>
    simp only [versionOk, Bool.and_eq_true, decide_eq_true_eq, Bool.not_eq_true',
      isEmpty_false_iff, and_assoc]

theorem versionOk_parse (s : String) (v : SemanticVersion)
    (hp : parseVersion s = some v) : versionOk v = true := by
  rw [parseVersion, parseVersionChars] at hp
  cases hm : regexMatch s.data with
  | none => rw [hm] at hp; simp at hp
  | some q =>
    obtain ⟨d1, d2, d3, ob⟩ := q
    rw [hm] at hp
    simp only [Option.some.injEq] at hp
    subst hp
    obtain ⟨-, -, -, -, hgb⟩ := regexMatch_inv hm
    rw [versionOk_iff]
    refine ⟨Int.natCast_nonneg _, Int.natCast_nonneg _, Int.natCast_nonneg _, ?_⟩
    cases ob with
    | none => trivial
    | some b => exact hgb.1

theorem versionOk_adjust (v : SemanticVersion) (p : Part) (d : Direction)
    (h : versionOk v = true) : versionOk (adjustVersionPart v p d) = true := by
  obtain ⟨M, N, P, B⟩ := v
  rw [versionOk_iff] at h
  obtain ⟨hM, hN, hP, hB⟩ := h
  cases p <;> cases d <;> simp only [adjustVersionPart] <;> try split
  all_goals rw [versionOk_iff]
  all_goals exact ⟨by omega, by omega, by omega, hB⟩

/-! ### Claim theorems for the version model -/

/-- C3, counterexample: the string `"01.0.0"` is accepted by Parse (the regex
places no canonicity requirement on digit runs), but formatting the parsed
version yields `"1.0.0"`, not the original string, so
`Format(Parse(s)) == s` fails for an accepted `s`. -/
theorem parse_format_roundtrip_cex :
    parseVersion "01.0.0" = some ⟨1, 0, 0, none⟩ ∧
    formatVersion ⟨1, 0, 0, none⟩ ≠ "01.0.0" := by
  constructor
  · decide
  · decide

/-- C3 (amended): Parse and Format are mutually inverse on restricted
domains: `Parse(Format(v)) = v` for every version with non-negative parts
whose build, when present, is non-empty and free of line terminators; and
`Format(Parse(s)) = s` for every accepted string whose three numeric groups
are canonical decimal numerals (no redundant leading zeros). -/
theorem parse_format_roundtrip_amended :
    (∀ v : SemanticVersion, 0 ≤ v.major → 0 ≤ v.minor → 0 ≤ v.patch →
      buildDomainOk v.build → parseVersion (formatVersion v) = some v) ∧
    (∀ (s : String) (v : SemanticVersion), parseVersion s = some v →
      canonicalNumerals s.data = true → formatVersion v = s) :=
  ⟨parse_format_of_domain, format_parse_of_canonical⟩

theorem parse_format_roundtrip_amended_witness :
    parseVersion (formatVersion ⟨1, 2, 3, some "beta.1"⟩) = some ⟨1, 2, 3, some "beta.1"⟩ ∧
    formatVersion ⟨10, 0, 3, none⟩ = "10.0.3" :=
  ⟨parse_format_roundtrip_amended.1 ⟨1, 2, 3, some "beta.1"⟩ (by decide) (by decide)
      (by decide) ⟨by decide, by decide⟩,
   parse_format_roundtrip_amended.2 "10.0.3" ⟨10, 0, 3, none⟩ (by decide) (by decide)⟩

/-- C5: `adjustVersionPart` increments the selected part (resetting the
subordinate parts on `major`/`minor` increments and nothing on `patch`),
and decrements the selected part exactly when it is strictly positive,
leaving the version unchanged otherwise; unrelated parts are untouched. -/
theorem adjustVersionPart_spec (v : SemanticVersion) :
    adjustVersionPart v .major .up = { v with major := v.major + 1, minor := 0, patch := 0 } ∧
    adjustVersionPart v .minor .up = { v with minor := v.minor + 1, patch := 0 } ∧
    adjustVersionPart v .patch .up = { v with patch := v.patch + 1 } ∧
    adjustVersionPart v .major .down =
      (if 0 < v.major then { v with major := v.major - 1 } else v) ∧
    adjustVersionPart v .minor .down =
      (if 0 < v.minor then { v with minor := v.minor - 1 } else v) ∧
    adjustVersionPart v .patch .down =
      (if 0 < v.patch then { v with patch := v.patch - 1 } else v) :=
  ⟨rfl, rfl, rfl, rfl, rfl, rfl⟩

/-- C6: every adjustment, in either direction, preserves the build field
verbatim (present and identical, or absent). -/
theorem adjustVersionPart_preserves_build (v : SemanticVersion) (part : Part)
    (direction : Direction) : (adjustVersionPart v part direction).build = v.build := by
  cases direction <;> cases part <;> simp only [adjustVersionPart] <;> (try split) <;> rfl

/-- C9: every version produced by the model satisfies the schema invariant —
non-negative numeric parts and a non-empty build when present: Parse only
outputs such versions, and `adjustVersionPart` (a total function) preserves
the invariant in every part/direction combination. -/
theorem version_invariants :
    (∀ (s : String) (v : SemanticVersion), parseVersion s = some v →
      versionOk v = true) ∧
    (∀ (v : SemanticVersion) (p : Part) (d : Direction), versionOk v = true →
      versionOk (adjustVersionPart v p d) = true) :=
  ⟨versionOk_parse, versionOk_adjust⟩

theorem version_invariants_witness :
    versionOk ⟨1, 2, 3, some "beta.1"⟩ = true ∧
    versionOk (adjustVersionPart ⟨0, 0, 0, some "x"⟩ .major .down) = true :=
  ⟨version_invariants.1 "1.2.3-beta.1" ⟨1, 2, 3, some "beta.1"⟩ (by decide),
   version_invariants.2 ⟨0, 0, 0, some "x"⟩ .major .down (by decide)⟩

/-! ### Direction resolution in `handleUpdateVersionPart` -/

/-- The options object accepted by the command handlers
(`Options` in `src/cli/commands.ts`): every field optional. -/
structure Options where
  package : Option String := none
  type : Option String := none
  subject : Option String := none
  up : Option Bool := none
  down : Option Bool := none
deriving DecidableEq, Repr

/-- JavaScript truthiness of an optional boolean flag. -/
def truthy : Option Bool → Bool
  | none => false
  | some b => b

/-- Direction resolution in `handleUpdateVersionPart`: the direction starts
as `'up'` and is set to `'down'` exactly when `options.down` is truthy. -/
def resolveDirection (options : Options) : Direction :=
  if truthy options.down then .down else .up

/-- C10: the resolved direction is `down` exactly when the `down` flag is
truthy and `up` otherwise; in particular `down` wins when both flags are
supplied and the default with no flags is `up`. -/
theorem resolveDirection_spec (o : Options) :
    (resolveDirection o = .down ↔ truthy o.down = true) ∧
    (resolveDirection o = .up ↔ truthy o.down = false) ∧
    resolveDirection { o with up := some true, down := some true } = .down ∧
    resolveDirection { o with up := some true, down := none } = .up := by
  refine ⟨?_, ?_, rfl, rfl⟩ <;> cases h : truthy o.down <;> simp [resolveDirection, h]

/-! ### The substitution engine (`handleCopyTo`)

`handleCopyTo` reads and formats the manifest version, then processes the
target tree in two stages.  Filtering: every discovered file is read with
`fs.readFileSync` — there is no per-file `try/catch` at this stage, so an
exception propagates to the whole-invocation handler — and is kept as a
candidate when its content contains the subject as a literal substring
(`String.prototype.includes`).  Rewriting: each candidate is re-read and
rewritten inside a per-file `try/catch`; the subject is compiled as a
JavaScript regular expression (`new RegExp(subject, 'g')`) and its matches
are replaced by the version string; the file is written back only when the
content changed, and the updated counter is incremented only after a
successful write.

The regex fragment modelled here covers subjects built from literal
characters and the wildcard `'.'` (any character except a line terminator).
Subjects using other regex metacharacters, and replacement strings
containing `'$'` (which `String.prototype.replace` treats specially), are
outside the modelled fragment. -/

/-- One token of a compiled pattern: a literal character or the `.`
wildcard. -/
inductive RTok where
  | lit (c : Char)
  | anyCh
deriving DecidableEq, Repr

/-- Whether a pattern token matches one character. -/
def rtokMatches : RTok → Char → Bool
  | .lit a, c => a = c
  | .anyCh, c => !isLineTerm c

/-- JavaScript regex metacharacters (pattern syntax). -/
def isRegexMeta (c : Char) : Bool :=
  c = '^' || c = '$' || c = '\\' || c = '.' || c = '*' || c = '+' || c = '?' ||
  c = '(' || c = ')' || c = '[' || c = ']' || c = '\x7b' || c = '\x7d' || c = '|'

/-- Compile one subject character — `'.'` becomes the wildcard, a
non-metacharacter matches literally, any other metacharacter is outside the
modelled fragment. -/
def parseTok (c : Char) : Option RTok :=
  if c = '.' then some RTok.anyCh
  else if isRegexMeta c then none
  else some (RTok.lit c)

/-- Compile a subject into pattern tokens — the modelled fragment of
`new RegExp(subject, 'g')`. -/
def parseJsPattern : List Char → Option (List RTok)
  | [] => some []
  | c :: p =>
    match parseTok c, parseJsPattern p with
    | some t, some ts => some (t :: ts)
    | _, _ => none

/-- Match a fixed-length token list against a prefix of the input, returning
the remainder on success. -/
def rmatch : List RTok → List Char → Option (List Char)
  | [], s => some s
  | _ :: _, [] => none
  | t :: ts, c :: s => if rtokMatches t c then rmatch ts s else none

/-- Fuel-driven left-to-right global replacement, the behaviour of
`content.replace(regex, repl)` with the `g` flag for a replacement string
without `'$'`: at each position, if the pattern matches, emit the
replacement and continue after the match (a zero-width match advances one
character, as `lastIndex` does in JavaScript); otherwise keep the character.
Any `fuel > length` makes it exact. -/
def regexReplaceAux (ts : List RTok) (repl : List Char) : Nat → List Char → List Char
  | 0, s => s
  | _ + 1, [] => if (rmatch ts []).isSome then repl else []
  | fuel + 1, c :: s =>
    match rmatch ts (c :: s) with
    | some rest =>
      if rest.length = s.length + 1 then repl ++ c :: regexReplaceAux ts repl fuel s
      else repl ++ regexReplaceAux ts repl fuel rest
    | none => c :: regexReplaceAux ts repl fuel s

/-- Global regex replacement over a whole string. -/
def regexReplaceG (ts : List RTok) (repl s : List Char) : List Char :=
  regexReplaceAux ts repl (s.length + 1) s

/-- Fuel-driven literal global substring replacement — the specification's
reading of the rewrite step: global, non-overlapping, left-to-right, the
pattern taken verbatim. -/
def literalReplaceAux (pat repl : List Char) : Nat → List Char → List Char
  | 0, s => s
  | _ + 1, [] => []
  | fuel + 1, c :: s =>
    if pat.isPrefixOf (c :: s) && !pat.isEmpty then
      repl ++ literalReplaceAux pat repl fuel (List.drop pat.length (c :: s))
    else c :: literalReplaceAux pat repl fuel s

/-- Literal global replacement over a whole string. -/
def literalReplace (pat repl s : List Char) : List Char :=
  literalReplaceAux pat repl (s.length + 1) s

/-- The content transform the code applies to one candidate:
`content.replace(new RegExp(subject, 'g'), versionString)`, within the
modelled pattern fragment. -/
def codeNewContent (subject vs content : String) : Option String :=
  (parseJsPattern subject.data).map fun ts =>
    String.mk (regexReplaceG ts vs.data content.data)

/-- The content transform the specification describes: literal global
substring replacement of the placeholder by the version string. -/
def literalNewContent (subject vs content : String) : String :=
  String.mk (literalReplace subject.data vs.data content.data)

/-- A file visible to the engine: its content together with fault flags for
the three I/O operations the engine performs on it (read during filtering,
re-read during rewriting, write). -/
structure VFile where
  path : String
  content : List Char
  readFail1 : Bool := false
  readFail2 : Bool := false
  writeFail : Bool := false
deriving DecidableEq, Repr

/-- `content.includes(subject)`: literal substring containment. -/
def containsSub (content subject : List Char) : Bool :=
  content.tails.any fun t => subject.isPrefixOf t

/-- Filtering stage: each discovered file is read in order (a failing read
raises, aborting the stage) and kept when its content includes the
subject. -/
def filterStage (subject : List Char) : List VFile → Except Unit (List VFile)
  | [] => .ok []
  | f :: fs =>
    if f.readFail1 then .error ()
    else
      match filterStage subject fs with
      | .error e => .error e
      | .ok rest => .ok (if containsSub f.content subject then f :: rest else rest)

/-- Outcome of the rewriting stage: final file states, updated count, and
the per-file warnings that were emitted. -/
structure RewriteResult where
  files : List VFile
  updatedCount : Nat
  warnings : List String
deriving DecidableEq, Repr

/-- The warning emitted by the per-file `catch`:
`Failed to update ${filePath}`. -/
def warnMsg (path : String) : String := "Failed to update " ++ path

/-- Rewriting stage over the file list: each kept candidate is re-read,
transformed, and written back when changed, inside a per-file `try/catch`
(a read or write failure leaves that file unchanged and uncounted, and emits
a per-file warning); non-candidates are untouched. -/
def rewriteStage (subject : List Char) (ts : List RTok) (vs : List Char) :
    List VFile → RewriteResult
  | [] => ⟨[], 0, []⟩
  | f :: fs =>
    let r := rewriteStage subject ts vs fs
    if containsSub f.content subject then
      if f.readFail2 then ⟨f :: r.files, r.updatedCount, warnMsg f.path :: r.warnings⟩
      else
        if regexReplaceG ts vs f.content = f.content then
          ⟨f :: r.files, r.updatedCount, r.warnings⟩
        else if f.writeFail then
          ⟨f :: r.files, r.updatedCount, warnMsg f.path :: r.warnings⟩
        else
          ⟨{ f with content := regexReplaceG ts vs f.content } :: r.files,
            r.updatedCount + 1, r.warnings⟩
    else ⟨f :: r.files, r.updatedCount, r.warnings⟩

/-- One invocation of the engine over an already-discovered file list:
filtering (whose exception aborts the run with no file modified and no
per-file warning), then rewriting of the kept candidates. -/
def runEngine (subject : List Char) (ts : List RTok) (vs : List Char)
    (files : List VFile) : RewriteResult :=
  match filterStage subject files with
  | .error _ => ⟨files, 0, []⟩
  | .ok _ => rewriteStage subject ts vs files

/-! ### Literal subjects give literal replacement -/

theorem rmatch_lits : ∀ (pat s : List Char),
    rmatch (pat.map RTok.lit) s =
      if pat.isPrefixOf s then some (s.drop pat.length) else none := by
  intro pat
  induction pat with
  | nil => intro s; simp [rmatch, List.isPrefixOf]
  | cons p ps ih =>
    intro s
    cases s with
    | nil => simp [rmatch, List.isPrefixOf]
    | cons c t =>
      simp only [List.map_cons, rmatch, rtokMatches, List.isPrefixOf, List.drop_succ_cons]
      by_cases hpc : p = c
      · subst hpc
        rw [if_pos (by simp), ih t]
        simp
      · rw [if_neg (by simpa using hpc)]
        simp [hpc, Ne.symm hpc]

theorem regexReplaceAux_eq_literalAux (pat repl : List Char) (hne : pat ≠ []) :
    ∀ fuel s, regexReplaceAux (pat.map RTok.lit) repl fuel s =
      literalReplaceAux pat repl fuel s := by
  have hie : pat.isEmpty = false := by
    cases pat with
    | nil => exact absurd rfl hne
    | cons p ps => rfl
  have hlen1 : 1 ≤ pat.length := by
    cases pat with
    | nil => exact absurd rfl hne
    | cons p ps => simp
  intro fuel
  induction fuel with
  | zero => intro s; rfl
  | succ fuel ih =>
    intro s
    cases s with
    | nil =>
      show (if (rmatch (pat.map RTok.lit) []).isSome then repl else []) = []
      rw [rmatch_lits]
      cases pat with
      | nil => exact absurd rfl hne
      | cons p ps => simp [List.isPrefixOf]
    | cons c s =>
      show (match rmatch (pat.map RTok.lit) (c :: s) with
        | some rest =>
          if rest.length = s.length + 1 then
            repl ++ c :: regexReplaceAux (pat.map RTok.lit) repl fuel s
          else repl ++ regexReplaceAux (pat.map RTok.lit) repl fuel rest
        | none => c :: regexReplaceAux (pat.map RTok.lit) repl fuel s) =
        literalReplaceAux pat repl (fuel + 1) (c :: s)
      rw [rmatch_lits]
      by_cases hp : pat.isPrefixOf (c :: s)
      · rw [if_pos hp]
        have hlen : ((c :: s).drop pat.length).length ≠ s.length + 1 := by
          rw [List.length_drop]
          simp only [List.length_cons]
          omega
        simp only [hlen, if_false, ih]
        show _ = literalReplaceAux pat repl (fuel + 1) (c :: s)
        have hcond : (pat.isPrefixOf (c :: s) && !pat.isEmpty) = true := by
          rw [hp, hie]
          rfl
        conv_rhs => rw [literalReplaceAux]
        rw [if_pos hcond]
      · rw [if_neg hp]
        have hcond : (pat.isPrefixOf (c :: s) && !pat.isEmpty) = false := by
          rw [Bool.eq_false_iff]
          intro hcon
          rw [Bool.and_eq_true] at hcon
          exact hp hcon.1
        conv_rhs => rw [literalReplaceAux]
        rw [if_neg (by simp [hcond]), ih]

theorem parseJsPattern_lits : ∀ p : List Char,
    (∀ c ∈ p, isRegexMeta c = false) → parseJsPattern p = some (p.map RTok.lit) := by
  intro p
  induction p with
  | nil => intro _; rfl
  | cons c t ih =>
    intro h
    have hc : isRegexMeta c = false := h c (List.mem_cons_self c t)
    have hdot : ¬ c = '.' := by
      intro hcd
      rw [hcd] at hc
      exact absurd hc (by decide)
    have ht : parseJsPattern t = some (t.map RTok.lit) :=
      ih fun x hx => h x (List.mem_cons_of_mem c hx)
    show (match parseTok c, parseJsPattern t with
      | some tok, some ts => some (tok :: ts)
      | _, _ => none) = some ((c :: t).map RTok.lit)
    rw [ht, parseTok, if_neg hdot, if_neg (by rw [hc]; exact Bool.false_ne_true)]
    rfl

example : regexReplaceG [.anyCh] "1.2.3".data "ab".data = "1.2.31.2.3".data := by decide
example : literalReplace ".".data "1.2.3".data "ab".data = "ab".data := by decide

/-! ### Claim theorems for the rewrite transform -/

/-- C1, counterexample: the file content `"a.b"` contains the placeholder
`"."` as a literal substring, so under the engine it is a kept candidate
(it passes the `includes` filter).  The code compiles the placeholder with
`new RegExp`, where `'.'` matches any character, so the rewrite stage
rewrites the candidate to `"1.2.31.2.31.2.3"` (every character replaced),
whereas literal replacement of the single occurrence of `"."` yields
`"a1.2.3b"` — for this kept candidate the new content is not the old
content with every literal occurrence of the placeholder replaced. -/
theorem replacement_literal_cex :
    containsSub "a.b".data ".".data = true ∧
    parseJsPattern ".".data = some [.anyCh] ∧
    runEngine ".".data [.anyCh] "1.2.3".data [⟨"f", "a.b".data, false, false, false⟩] =
      ⟨[⟨"f", "1.2.31.2.31.2.3".data, false, false, false⟩], 1, []⟩ ∧
    literalNewContent "." "1.2.3" "a.b" = "a1.2.3b" ∧
    codeNewContent "." "1.2.3" "a.b" ≠ some (literalNewContent "." "1.2.3" "a.b") := by
  refine ⟨by decide, by decide, by decide, by decide, by decide⟩

/-- C1 (amended): for a non-empty placeholder containing no JavaScript regex
metacharacter, and a version string containing no `'$'` (so the replacement
string is inserted verbatim), the rewrite step performed by the code equals
literal global substring replacement of the placeholder: global,
non-overlapping, left-to-right.  Placeholders containing metacharacters are
instead interpreted as regular-expression syntax. -/
theorem replacement_literal_amended (subject vs content : String)
    (hne : subject.data ≠ [])
    (hmeta : ∀ c ∈ subject.data, isRegexMeta c = false)
    (_hdollar : ∀ c ∈ vs.data, c ≠ '$') :
    codeNewContent subject vs content = some (literalNewContent subject vs content) := by
  rw [codeNewContent, parseJsPattern_lits subject.data hmeta, Option.map_some',
    literalNewContent, literalReplace, regexReplaceG,
    regexReplaceAux_eq_literalAux subject.data vs.data hne]

theorem replacement_literal_amended_witness :
    codeNewContent "__VERSION__" "1.2.3" "v=__VERSION__;" =
      some (literalNewContent "__VERSION__" "1.2.3" "v=__VERSION__;") :=
  replacement_literal_amended "__VERSION__" "1.2.3" "v=__VERSION__;"
    (by decide) (by decide) (by decide)

/-! ### Engine stage lemmas -/

theorem filterStage_nil (subject : List Char) : filterStage subject [] = .ok [] := rfl

theorem filterStage_cons (subject : List Char) (f : VFile) (fs : List VFile) :
    filterStage subject (f :: fs) =
      if f.readFail1 then .error ()
      else
        match filterStage subject fs with
        | .error e => .error e
        | .ok rest => .ok (if containsSub f.content subject then f :: rest else rest) := rfl

theorem rewriteStage_nil (subject : List Char) (ts : List RTok) (vs : List Char) :
    rewriteStage subject ts vs [] = ⟨[], 0, []⟩ := rfl

theorem rewriteStage_cons (subject : List Char) (ts : List RTok) (vs : List Char)
    (f : VFile) (fs : List VFile) :
    rewriteStage subject ts vs (f :: fs) =
      (if containsSub f.content subject then
        if f.readFail2 then
          ⟨f :: (rewriteStage subject ts vs fs).files,
            (rewriteStage subject ts vs fs).updatedCount,
            warnMsg f.path :: (rewriteStage subject ts vs fs).warnings⟩
        else
          if regexReplaceG ts vs f.content = f.content then
            ⟨f :: (rewriteStage subject ts vs fs).files,
              (rewriteStage subject ts vs fs).updatedCount,
              (rewriteStage subject ts vs fs).warnings⟩
          else if f.writeFail then
            ⟨f :: (rewriteStage subject ts vs fs).files,
              (rewriteStage subject ts vs fs).updatedCount,
              warnMsg f.path :: (rewriteStage subject ts vs fs).warnings⟩
          else
            ⟨{ f with content := regexReplaceG ts vs f.content } ::
                (rewriteStage subject ts vs fs).files,
              (rewriteStage subject ts vs fs).updatedCount + 1,
              (rewriteStage subject ts vs fs).warnings⟩
      else
        ⟨f :: (rewriteStage subject ts vs fs).files,
          (rewriteStage subject ts vs fs).updatedCount,
          (rewriteStage subject ts vs fs).warnings⟩ : RewriteResult) := rfl

theorem filterStage_error_of (subject : List Char) :
    ∀ files : List VFile, (∃ f ∈ files, f.readFail1 = true) →
      filterStage subject files = .error () := by
  intro files
  induction files with
  | nil =>
    rintro ⟨f, hf, -⟩
    exact absurd hf (List.not_mem_nil f)
  | cons g fs ih =>
    rintro ⟨f, hf, hrf⟩
    rw [filterStage_cons]
    cases hg : g.readFail1 with
    | true => simp
    | false =>
      rw [if_neg (by simp [hg])]
      have hffs : f ∈ fs := by
        rcases List.mem_cons.mp hf with hfg | hmem
        · rw [hfg] at hrf
          rw [hrf] at hg
          exact absurd hg (by simp)
        · exact hmem
      rw [ih ⟨f, hffs, hrf⟩]

theorem filterStage_ok_empty (subject : List Char) :
    ∀ files : List VFile, (∀ f ∈ files, containsSub f.content subject = false) →
      (∀ f ∈ files, f.readFail1 = false) → filterStage subject files = .ok [] := by
  intro files
  induction files with
  | nil => intro _ _; rfl
  | cons f fs ih =>
    intro hc hr
    rw [filterStage_cons,
      if_neg (by simp [hr f (List.mem_cons_self f fs)]),
      ih (fun g hg => hc g (List.mem_cons_of_mem f hg))
        (fun g hg => hr g (List.mem_cons_of_mem f hg))]
    simp [hc f (List.mem_cons_self f fs)]

theorem rewriteStage_no_candidates (subject : List Char) (ts : List RTok) (vs : List Char) :
    ∀ files : List VFile, (∀ f ∈ files, containsSub f.content subject = false) →
      rewriteStage subject ts vs files = ⟨files, 0, []⟩ := by
  intro files
  induction files with
  | nil => intro _; rfl
  | cons f fs ih =>
    intro h
    rw [rewriteStage_cons, ih (fun g hg => h g (List.mem_cons_of_mem f hg)),
      if_neg (by simp [h f (List.mem_cons_self f fs)])]

/-- Whether the rewrite loop body updates a given file: it must be a kept
candidate, its re-read must succeed, the replacement must change the
content (otherwise no write is attempted), and the write must succeed. -/
def rewriteSuccess (subject : List Char) (ts : List RTok) (vs : List Char)
    (f : VFile) : Bool :=
  containsSub f.content subject && !f.readFail2 &&
    !(regexReplaceG ts vs f.content == f.content) && !f.writeFail

/-- Final state of one file after the rewrite loop. -/
def rewriteFile (subject : List Char) (ts : List RTok) (vs : List Char)
    (f : VFile) : VFile :=
  if rewriteSuccess subject ts vs f then
    { f with content := regexReplaceG ts vs f.content }
  else f

/-- Whether the rewrite loop body emits a warning for a given file: a kept
candidate whose re-read fails, or whose attempted write (content changed,
read succeeded) fails. -/
def rewriteWarned (subject : List Char) (ts : List RTok) (vs : List Char)
    (f : VFile) : Bool :=
  containsSub f.content subject &&
    (f.readFail2 || (!(regexReplaceG ts vs f.content == f.content) && f.writeFail))

/-! ### Claim theorems for the engine stages -/

/-- C7: the rewriting stage processes every file independently: the final
state is the per-file `rewriteFile` applied position-wise (so a failure for
one candidate never blocks the others, and files already written stay
written), the reported updated count is exactly the number of candidates
whose write succeeded (`rewriteSuccess`), and each candidate whose read or
write failed contributes exactly its own per-file warning
(`Failed to update <path>`). -/
theorem rewriteStage_isolation (subject : List Char) (ts : List RTok) (vs : List Char) :
    ∀ files : List VFile,
      rewriteStage subject ts vs files =
        ⟨files.map (rewriteFile subject ts vs),
         (files.filter (rewriteSuccess subject ts vs)).length,
         (files.filter (rewriteWarned subject ts vs)).map fun f => warnMsg f.path⟩ := by
  intro files
  induction files with
  | nil => rfl
  | cons f fs ih =>
    rw [rewriteStage_cons, ih, List.map_cons, List.filter_cons, List.filter_cons]
    cases hc : containsSub f.content subject with
    | false =>
      have hs : rewriteSuccess subject ts vs f = false := by
        simp [rewriteSuccess, hc]
      have hw2 : rewriteWarned subject ts vs f = false := by
        simp [rewriteWarned, hc]
      simp [rewriteFile, hs, hw2, hc]
    | true =>
      cases hr : f.readFail2 with
      | true =>
        have hs : rewriteSuccess subject ts vs f = false := by
          simp [rewriteSuccess, hr]
        have hw2 : rewriteWarned subject ts vs f = true := by
          simp [rewriteWarned, hc, hr]
        simp [rewriteFile, hs, hw2, hc, hr]
      | false =>
        by_cases hnc : regexReplaceG ts vs f.content = f.content
        · have hs : rewriteSuccess subject ts vs f = false := by
            simp [rewriteSuccess, hnc]
          have hw2 : rewriteWarned subject ts vs f = false := by
            simp [rewriteWarned, hr, hnc]
          simp [rewriteFile, hs, hw2, hc, hr, hnc]
        · cases hw : f.writeFail with
          | true =>
            have hs : rewriteSuccess subject ts vs f = false := by
              simp [rewriteSuccess, hw]
            have hw2 : rewriteWarned subject ts vs f = true := by
              simp [rewriteWarned, hc, hr, hnc, hw]
            simp [rewriteFile, hs, hw2, hc, hr, hnc, hw]
          | false =>
            have hs : rewriteSuccess subject ts vs f = true := by
              simp [rewriteSuccess, hc, hr, hnc, hw]
            have hw2 : rewriteWarned subject ts vs f = false := by
              simp [rewriteWarned, hr, hnc, hw]
            simp [rewriteFile, hs, hw2, hc, hr, hnc, hw]

/-- C2, counterexample: with two candidate files of which the second fails
its filtering read, the whole invocation aborts — the engine returns every
file unchanged and reports zero updates — although rewriting the remaining
candidate alone would have updated it; the failing candidate is not
"silently removed with the run continuing". -/
theorem filter_read_failure_cex :
    runEngine ['V'] [.lit 'V'] ['1']
      [⟨"good", ['V'], false, false, false⟩, ⟨"bad", ['V'], true, false, false⟩] =
      ⟨[⟨"good", ['V'], false, false, false⟩, ⟨"bad", ['V'], true, false, false⟩], 0, []⟩ ∧
    rewriteStage ['V'] [.lit 'V'] ['1'] [⟨"good", ['V'], false, false, false⟩] =
      ⟨[⟨"good", ['1'], false, false, false⟩], 1, []⟩ := by
  refine ⟨by decide, by decide⟩

/-- C2 (amended): a per-file read failure during the filtering stage is not
caught per-file: the exception aborts the whole invocation (reported by the
outer handler), no file is rewritten, and the updated count is zero. -/
theorem filter_read_failure_aborts (subject : List Char) (ts : List RTok)
    (vs : List Char) (files : List VFile)
    (h : ∃ f ∈ files, f.readFail1 = true) :
    filterStage subject files = .error () ∧
    runEngine subject ts vs files = ⟨files, 0, []⟩ := by
  have he := filterStage_error_of subject files h
  exact ⟨he, by rw [runEngine, he]⟩

theorem filter_read_failure_aborts_witness :
    filterStage ['V'] [⟨"bad", ['V'], true, false, false⟩] = .error () ∧
    runEngine ['V'] [.lit 'V'] ['1'] [⟨"bad", ['V'], true, false, false⟩] =
      ⟨[⟨"bad", ['V'], true, false, false⟩], 0, []⟩ :=
  filter_read_failure_aborts ['V'] [.lit 'V'] ['1']
    [⟨"bad", ['V'], true, false, false⟩] ⟨⟨"bad", ['V'], true, false, false⟩, by decide⟩

/-- C4, counterexample: with placeholder `"1"` and version `1.2.3`, one run
rewrites the file `"1"` to `"1.2.3"`, which still contains the placeholder;
a second run over the resulting file set finds it as a candidate and writes
it again (count 1, not 0) — the engine is not idempotent and does not
eliminate every occurrence. -/
theorem engine_idempotence_cex :
    runEngine ['1'] [.lit '1'] "1.2.3".data [⟨"f", ['1'], false, false, false⟩] =
      ⟨[⟨"f", "1.2.3".data, false, false, false⟩], 1, []⟩ ∧
    containsSub "1.2.3".data ['1'] = true ∧
    (runEngine ['1'] [.lit '1'] "1.2.3".data
      [⟨"f", "1.2.3".data, false, false, false⟩]).updatedCount = 1 := by
  refine ⟨by decide, by decide, by decide⟩

/-- C4 (amended): when no file of the set contains the placeholder — in
particular after a first run whose rewrites left no occurrence — a further
run of the engine finds zero candidates, writes zero files, and leaves the
file set unchanged; the filtering stage itself returns an empty candidate
set when its reads succeed. -/
theorem engine_noop_without_occurrences (subject : List Char) (ts : List RTok)
    (vs : List Char) (files : List VFile)
    (h : ∀ f ∈ files, containsSub f.content subject = false)
    (hr : ∀ f ∈ files, f.readFail1 = false) :
    filterStage subject files = .ok [] ∧
    runEngine subject ts vs files = ⟨files, 0, []⟩ := by
  refine ⟨filterStage_ok_empty subject files h hr, ?_⟩
  rw [runEngine, filterStage_ok_empty subject files h hr]
  exact rewriteStage_no_candidates subject ts vs files h

theorem engine_noop_without_occurrences_witness :
    filterStage ['V'] [⟨"f", "1.2.3".data, false, false, false⟩] = .ok [] ∧
    runEngine ['V'] [.lit 'V'] "9.9.9".data [⟨"f", "1.2.3".data, false, false, false⟩] =
      ⟨[⟨"f", "1.2.3".data, false, false, false⟩], 0, []⟩ :=
  engine_noop_without_occurrences ['V'] [.lit 'V'] "9.9.9".data
    [⟨"f", "1.2.3".data, false, false, false⟩] (by decide) (by decide)

/-! ### Manifest update (`updatePackageVersion`)

`updatePackageVersion` reads the manifest, parses it with `JSON.parse`, sets
the `version` property to the formatted version, and writes back
`JSON.stringify(packageJson, null, 2) + '\n'`; any exception along the way
yields `false`.  JSON documents are modelled by `JValue`; an object's fields
are kept in insertion order, as `JSON.parse` produces them (unique keys) and
`JSON.stringify` consumes them. -/

inductive JValue where
  | null
  | bool (b : Bool)
  | num (n : Int)
  | str (s : String)
  | arr (elems : List JValue)
  | obj (fields : List (String × JValue))

/-- Property assignment `packageJson.version = s`: an existing `version` key
keeps its position and receives the new value; a missing key is appended. -/
def setVersionField (fields : List (String × JValue)) (v : JValue) :
    List (String × JValue) :=
  if fields.any (fun p => p.1 == "version") then
    fields.map fun p => if p.1 == "version" then (p.1, v) else p
  else fields ++ [("version", v)]

/-- Property lookup on the modelled object. -/
def lookupField : List (String × JValue) → String → Option JValue
  | [], _ => none
  | p :: rest, k => if p.1 == k then some p.2 else lookupField rest k

/-- Lower-case hexadecimal digit, as used by `JSON.stringify` escapes. -/
def hexDigit (n : Nat) : Char := if n < 10 then digitChar n else Char.ofNat (87 + n)

/-- `JSON.stringify` string escaping: quote, backslash, the named control
escapes, `\u00XX` for other control characters, everything else verbatim. -/
def escChar (c : Char) : List Char :=
  if c = '"' then ['\\', '"']
  else if c = '\\' then ['\\', '\\']
  else if c = '\n' then ['\\', 'n']
  else if c = '\t' then ['\\', 't']
  else if c = '\r' then ['\\', 'r']
  else if c = Char.ofNat 8 then ['\\', 'b']
  else if c = Char.ofNat 12 then ['\\', 'f']
  else if c.toNat < 32 then
    '\\' :: 'u' :: [hexDigit (c.toNat / 4096 % 16), hexDigit (c.toNat / 256 % 16),
      hexDigit (c.toNat / 16 % 16), hexDigit (c.toNat % 16)]
  else [c]

def quoteString (s : String) : String :=
  "\"" ++ String.mk (s.data.map escChar).flatten ++ "\""

/-- Indentation produced by `JSON.stringify(_, null, 2)` at a nesting
level. -/
def pad (lvl : Nat) : String := String.mk (List.replicate (2 * lvl) ' ')

mutual

/-- `JSON.stringify(value, null, 2)` on the modelled document. -/
def stringifyVal : Nat → JValue → String
  | _, .null => "null"
  | _, .bool true => "true"
  | _, .bool false => "false"
  | _, .num n => String.mk (intToChars n)
  | _, .str s => quoteString s
  | _, .arr [] => "[]"
  | lvl, .arr (x :: xs) =>
    "[\n" ++ stringifyItems (lvl + 1) (x :: xs) ++ "\n" ++ pad lvl ++ "]"
  | _, .obj [] => "\x7b\x7d"
  | lvl, .obj (p :: ps) =>
    "\x7b\n" ++ stringifyFields (lvl + 1) (p :: ps) ++ "\n" ++ pad lvl ++ "\x7d"

/-- Array items, one per line, comma-separated. -/
def stringifyItems : Nat → List JValue → String
  | _, [] => ""
  | lvl, [x] => pad lvl ++ stringifyVal lvl x
  | lvl, x :: y :: xs =>
    pad lvl ++ stringifyVal lvl x ++ ",\n" ++ stringifyItems lvl (y :: xs)

/-- Object entries, one per line, comma-separated. -/
def stringifyFields : Nat → List (String × JValue) → String
  | _, [] => ""
  | lvl, [p] => pad lvl ++ quoteString p.1 ++ ": " ++ stringifyVal lvl p.2
  | lvl, p :: q :: ps =>
    pad lvl ++ quoteString p.1 ++ ": " ++ stringifyVal lvl p.2 ++ ",\n" ++
      stringifyFields lvl (q :: ps)

end

/-- The manifest file as the function observes it: whether the read
succeeds, the parse result (`none` when `JSON.parse` throws), and whether
the write succeeds. -/
structure ManifestFile where
  readOk : Bool
  parsed : Option JValue
  writeOk : Bool

/-- The assignment `packageJson.version = s` on the parse result: objects
take the field update; arrays accept the property but `JSON.stringify`
ignores it; primitives and `null` throw a strict-mode TypeError (caught by
the surrounding handler). -/
def setVersionJS : JValue → String → Option JValue
  | .obj fields, s => some (.obj (setVersionField fields (.str s)))
  | .arr xs, _ => some (.arr xs)
  | _, _ => none

/-- `updatePackageVersion` from `src/cli/version.ts`: returns the written
file content (when a write happened) and the success flag. -/
def updatePackageVersion (m : ManifestFile) (version : SemanticVersion) :
    Option String × Bool :=
  if !m.readOk then (none, false)
  else
    match m.parsed with
    | none => (none, false)
    | some json =>
      match setVersionJS json (formatVersion version) with
      | none => (none, false)
      | some json' =>
        if m.writeOk then (some (stringifyVal 0 json' ++ "\n"), true)
        else (none, false)

/-! ### Field-preservation lemmas for the manifest update -/

theorem lookupField_nil (k : String) : lookupField [] k = none := rfl

theorem lookupField_cons (p : String × JValue) (rest : List (String × JValue))
    (k : String) :
    lookupField (p :: rest) k = if p.1 == k then some p.2 else lookupField rest k := rfl

theorem lookupField_map_version (v : JValue) (k : String) (hk : k ≠ "version") :
    ∀ fields : List (String × JValue),
      lookupField (fields.map fun p => if p.1 == "version" then (p.1, v) else p) k =
        lookupField fields k := by
  intro fields
  induction fields with
  | nil => rfl
  | cons p ps ih =>
    rw [List.map_cons]
    by_cases hp : p.1 = "version"
    · have hbk : (p.1 == k) = false := by
        rw [beq_eq_false_iff_ne, hp]
        exact fun he => hk he.symm
      rw [if_pos (by rw [hp]; rfl), lookupField_cons, lookupField_cons]
      simp only [hbk, Bool.false_eq_true, if_false, ih]
    · rw [if_neg (by simpa using hp), lookupField_cons, lookupField_cons, ih]

theorem lookupField_map_version_hit (v : JValue) :
    ∀ fields : List (String × JValue),
      fields.any (fun p => p.1 == "version") = true →
      lookupField (fields.map fun p => if p.1 == "version" then (p.1, v) else p)
        "version" = some v := by
  intro fields
  induction fields with
  | nil => intro h; simp at h
  | cons p ps ih =>
    intro h
    rw [List.map_cons]
    by_cases hp : p.1 = "version"
    · rw [if_pos (by rw [hp]; rfl), lookupField_cons]
      simp [hp]
    · rw [if_neg (by simpa using hp), lookupField_cons,
        if_neg (by simpa using hp)]
      apply ih
      rw [List.any_cons] at h
      rcases Bool.or_eq_true_iff.mp h with hh | hh
      · exact absurd (by simpa using hh) hp
      · exact hh

theorem lookupField_append_version (v : JValue) :
    ∀ fields : List (String × JValue),
      fields.any (fun p => p.1 == "version") = false →
      lookupField (fields ++ [("version", v)]) "version" = some v := by
  intro fields
  induction fields with
  | nil => intro _; rfl
  | cons p ps ih =>
    intro h
    rw [List.any_cons, Bool.or_eq_false_iff] at h
    rw [List.cons_append, lookupField_cons, if_neg (by simp [h.1])]
    exact ih h.2

theorem lookupField_append_ne (v : JValue) (k : String) (hk : k ≠ "version") :
    ∀ fields : List (String × JValue),
      lookupField (fields ++ [("version", v)]) k = lookupField fields k := by
  intro fields
  induction fields with
  | nil =>
    have hbk : ("version" == k) = false := by
      rw [beq_eq_false_iff_ne]
      exact fun he => hk he.symm
    simp [lookupField_cons, hbk]
  | cons p ps ih =>
    rw [List.cons_append, lookupField_cons, lookupField_cons, ih]

theorem lookupField_setVersion (fields : List (String × JValue)) (v : JValue) :
    lookupField (setVersionField fields v) "version" = some v := by
  rw [setVersionField]
  cases h : fields.any (fun p => p.1 == "version") with
  | true => rw [if_pos rfl]; exact lookupField_map_version_hit v fields h
  | false => rw [if_neg (by simp)]; exact lookupField_append_version v fields h

theorem lookupField_setVersion_ne (fields : List (String × JValue)) (v : JValue)
    (k : String) (hk : k ≠ "version") :
    lookupField (setVersionField fields v) k = lookupField fields k := by
  rw [setVersionField]
  cases h : fields.any (fun p => p.1 == "version") with
  | true => rw [if_pos rfl]; exact lookupField_map_version v k hk fields
  | false => rw [if_neg (by simp)]; exact lookupField_append_ne v k hk fields

/-! ### Claim theorem for the manifest update -/

/-- C8: `updatePackageVersion` returns `false` whenever the read, the JSON
parse, or the write fails, and `true` only on full success; on success over
a JSON object the written document is the prior object with its `version`
field set to the formatted version — every other field preserved, in place —
serialized with 2-space indentation and a trailing newline. -/
theorem updatePackageVersion_spec :
    (∀ (m : ManifestFile) (v : SemanticVersion),
      m.readOk = false ∨ m.parsed = none ∨ m.writeOk = false →
      (updatePackageVersion m v).2 = false) ∧
    (∀ (m : ManifestFile) (v : SemanticVersion) (fields : List (String × JValue)),
      m.readOk = true → m.writeOk = true → m.parsed = some (.obj fields) →
      updatePackageVersion m v =
        (some (stringifyVal 0 (.obj (setVersionField fields
          (.str (formatVersion v)))) ++ "\n"), true)) ∧
    (∀ (fields : List (String × JValue)) (s : String),
      lookupField (setVersionField fields (.str s)) "version" = some (.str s)) ∧
    (∀ (fields : List (String × JValue)) (s : String) (k : String), k ≠ "version" →
      lookupField (setVersionField fields (.str s)) k = lookupField fields k) := by
  refine ⟨?_, ?_, ?_, ?_⟩
  · rintro ⟨r, p, w⟩ v (h | h | h)
    · subst h
      rfl
    · subst h
      cases r <;> rfl
    · subst h
      cases r with
      | false => rfl
      | true =>
        cases p with
        | none => rfl
        | some json =>
          simp only [updatePackageVersion]
          cases hs : setVersionJS json (formatVersion v) with
          | none => simp [hs]
          | some json' => simp [hs]
  · rintro ⟨r, p, w⟩ v fields hr hw hp
    subst hr
    subst hw
    subst hp
    rfl
  · intro fields s
    exact lookupField_setVersion fields (.str s)
  · intro fields s k hk
    exact lookupField_setVersion_ne fields (.str s) k hk

theorem updatePackageVersion_spec_witness :
    (updatePackageVersion ⟨false, some (.obj []), true⟩ ⟨1, 2, 3, none⟩).2 = false ∧
    updatePackageVersion ⟨true, some (.obj [("name", .str "app")]), true⟩ ⟨2, 0, 0, none⟩ =
      (some (stringifyVal 0 (.obj (setVersionField [("name", .str "app")]
        (.str (formatVersion ⟨2, 0, 0, none⟩)))) ++ "\n"), true) ∧
    lookupField (setVersionField [("name", .str "app")] (.str "2.0.0")) "version" =
      some (.str "2.0.0") ∧
    lookupField (setVersionField [("name", .str "app")] (.str "2.0.0")) "name" =
      lookupField [("name", .str "app")] "name" :=
  ⟨updatePackageVersion_spec.1 ⟨false, some (.obj []), true⟩ ⟨1, 2, 3, none⟩ (Or.inl rfl),
   updatePackageVersion_spec.2.1 ⟨true, some (.obj [("name", .str "app")]), true⟩
     ⟨2, 0, 0, none⟩ [("name", .str "app")] rfl rfl rfl,
   updatePackageVersion_spec.2.2.1 [("name", .str "app")] "2.0.0",
   updatePackageVersion_spec.2.2.2 [("name", .str "app")] "2.0.0" "name" (by decide)⟩

example : parseVersion "1.2.3" = some ⟨1, 2, 3, none⟩ := by decide
example : parseVersion "1.2.3-beta.1" = some ⟨1, 2, 3, some "beta.1"⟩ := by decide
example : parseVersion "1.2" = none := by decide
example : parseVersion "1.2.3.4" = none := by decide
example : parseVersion "not.a.version" = none := by decide
example : formatVersion ⟨1, 2, 3, none⟩ = "1.2.3" := by decide
example : formatVersion ⟨1, 2, 3, some "beta.1"⟩ = "1.2.3-beta.1" := by decide
example : adjustVersionPart ⟨1, 2, 3, none⟩ .major .up = ⟨2, 0, 0, none⟩ := by decide
example : adjustVersionPart ⟨0, 2, 3, none⟩ .major .down = ⟨0, 2, 3, none⟩ := by decide

end Versioner
